/-
Verification of the ring-with-embossed-text mesh pipeline
(Megidd/jewelry-personalization).

Shallow embedding of the geometry-generation code of the repository's
Blender scripts (ring-emboss/script.py and ring-flow/script.py):
the annulus mesh builder, the cylindrical text wrap, the arc allocator,
the boundary-stitching scan, the mesh merger and the volume estimator.
Floating-point values of the source are modelled as real numbers;
vertex indices and face lists are modelled exactly.
-/
import Mathlib

namespace JewelryRing

/-! ## Data model

A vertex is a 3D point; a face is an ordered list of vertex indices;
a mesh is a vertex list plus a face list
(`ring-emboss/script.py`, `ring-flow/script.py` use Blender meshes
with exactly this content). -/

structure Vec3 where
  x : ℝ
  y : ℝ
  z : ℝ

structure Mesh where
  verts : List Vec3
  faces : List (List ℕ)

def dotv (a b : Vec3) : ℝ := a.x * b.x + a.y * b.y + a.z * b.z

def crossv (a b : Vec3) : Vec3 :=
  ⟨a.y * b.z - a.z * b.y, a.z * b.x - a.x * b.z, a.x * b.y - a.y * b.x⟩

def subv (a b : Vec3) : Vec3 := ⟨a.x - b.x, a.y - b.y, a.z - b.z⟩

/-! ## ArcAllocator (`ring-flow/script.py`, `create_text_and_calculate_arc`)

From the source:
  `text_angle_span = text_width / outer_radius`
  `total_angle_span = text_angle_span + 2 * padding_angle`
  `self.text_start_angle = -total_angle_span / 2`
  `self.text_end_angle = total_angle_span / 2`
The source fixes `padding_angle = math.radians(2)`; the angles are a
function of the text width, the outer radius and that padding. -/

noncomputable def arcAngles (width radius padding : ℝ) : ℝ × ℝ :=
  let angularSpan := width / radius
  let totalSpan := angularSpan + 2 * padding
  (-totalSpan / 2, totalSpan / 2)

/-- `math.radians(2)`, the padding the ring-flow variant hardcodes. -/
noncomputable def paddingAngleFlow : ℝ := 2 * (Real.pi / 180)

/-! ## MeshMerger (`ring-flow/script.py`, `combine_ring_and_text_with_wedges`;
`ring-emboss/script.py`, `combine_ring_and_text`)

From the source: start from empty `all_verts`/`all_faces` and
`vertex_offset = 0`; for each mesh in input order, extend `all_verts`
with its vertices, append each of its faces with every index shifted by
the current `vertex_offset`, then advance the offset by its vertex
count.  (The subsequent `remove_doubles`/`normals_make_consistent`
welding calls are Blender built-in operators, external to this code;
the merged mesh below is the mesh the source hands to them.) -/

def mergeStep (acc : List Vec3 × List (List ℕ) × ℕ) (m : Mesh) :
    List Vec3 × List (List ℕ) × ℕ :=
  (acc.1 ++ m.verts,
   acc.2.1 ++ m.faces.map (fun f => f.map (· + acc.2.2)),
   acc.2.2 + m.verts.length)

def mergeMeshes (ms : List Mesh) : Mesh :=
  let r := ms.foldl mergeStep ([], [], 0)
  ⟨r.1, r.2.1⟩

/-- Spec-side description of the merged face list: each mesh's faces
re-indexed by that mesh's starting vertex offset (the sum of the vertex
counts of all earlier meshes), concatenated in input order. -/
def specMergedFaces : ℕ → List Mesh → List (List ℕ)
  | _, [] => []
  | off, m :: rest =>
      m.faces.map (fun f => f.map (· + off)) ++
        specMergedFaces (off + m.verts.length) rest

/-- Every face of every mesh references only in-range vertex indices. -/
def facesInRange (ms : List Mesh) : Prop :=
  ∀ m ∈ ms, ∀ f ∈ m.faces, ∀ i ∈ f, i < m.verts.length

instance (ms : List Mesh) : Decidable (facesInRange ms) := by
  unfold facesInRange; infer_instance

def emptyMesh : Mesh := ⟨[], []⟩

/-! ## Validation of the text content (`validate_config` of both scripts)

The scripts validate a JSON configuration.  The pure decision logic is
modelled here; results of filesystem probes (font file existence,
output-directory creation) enter as boolean parameters.  Text content
is modelled as a list of characters.

ring-flow (lines 165-177): reject empty/whitespace-only content, then
`content = text.replace('\n', '').replace('\r', '')`, then reject if
`len(content) > 500`.

ring-emboss (lines 143-155) differs in one quirk: line 150 reads
`text.replace('', '').replace('\r', '')`, and `replace('', '')` is a
no-op in Python, so only carriage returns are removed there. -/

def removeNL (s : List Char) : List Char := s.filter (fun c => c ≠ '\n')

def removeCR (s : List Char) : List Char := s.filter (fun c => c ≠ '\r')

def cleanedFlow (s : List Char) : List Char := removeCR (removeNL s)

def cleanedEmboss (s : List Char) : List Char := removeCR s

structure RingConf where
  innerDiameter : ℚ
  outerDiameter : ℚ
  length : ℚ
  radialSegments : ℤ
  verticalSegments : ℤ

structure TextConf where
  content : List Char
  fontSuffixOk : Bool
  fontSize : ℚ
  depth : ℚ
  direction : String

structure Conf where
  ring : RingConf
  text : TextConf

/-- The pure checks of `validate_config` (ring-flow), in source order.
Presence of required sections/fields is guaranteed by the record type;
`fontExists` and `dirsOk` are the filesystem probe results. -/
def validateConfigFlow (c : Conf) (fontExists dirsOk : Bool) : Bool :=
  if ¬ fontExists then false
  else if ¬ c.text.fontSuffixOk then false
  else if c.text.content.all Char.isWhitespace then false
  else if 500 < (cleanedFlow c.text.content).length then false
  else if c.ring.innerDiameter ≤ 0 ∨ c.ring.outerDiameter ≤ 0 ∨ c.ring.length ≤ 0 then false
  else if c.ring.outerDiameter ≤ c.ring.innerDiameter then false
  else if c.text.fontSize ≤ 0 then false
  else if c.text.depth ≤ 0 then false
  else if ¬ (c.text.direction = "normal" ∨ c.text.direction = "inverted") then false
  else if c.ring.radialSegments < 128 then false
  else if c.ring.verticalSegments < 32 then false
  else if ¬ dirsOk then false
  else true

/-- The pure checks of `validate_config` (ring-emboss); identical except
that its cleaning step only removes carriage returns. -/
def validateConfigEmboss (c : Conf) (fontExists dirsOk : Bool) : Bool :=
  if ¬ fontExists then false
  else if ¬ c.text.fontSuffixOk then false
  else if c.text.content.all Char.isWhitespace then false
  else if 500 < (cleanedEmboss c.text.content).length then false
  else if c.ring.innerDiameter ≤ 0 ∨ c.ring.outerDiameter ≤ 0 ∨ c.ring.length ≤ 0 then false
  else if c.ring.outerDiameter ≤ c.ring.innerDiameter then false
  else if c.text.fontSize ≤ 0 then false
  else if c.text.depth ≤ 0 then false
  else if ¬ (c.text.direction = "normal" ∨ c.text.direction = "inverted") then false
  else if c.ring.radialSegments < 128 then false
  else if c.ring.verticalSegments < 32 then false
  else if ¬ dirsOk then false
  else true

/-- `run` (both scripts): `if not self.validate_config(): return 1`.
`none` means validation passed and the run continues. -/
def validationGate (ok : Bool) : Option ℤ :=
  if ok then none else some 1

/-! ## Theorems: ArcAllocator (claim C4) -/

/-- C4: for non-negative width `w`, positive radius `r` and padding `p`,
the arc allocator returns `start = -(w/r + 2p)/2` and `end = (w/r + 2p)/2`;
the span is exactly `w/r + 2p`, the arc is centered at angle 0, and for
`w = 0` the span is exactly `2p`. -/
theorem arc_allocator_centered (w r p : ℝ) (hw : 0 ≤ w) (hr : 0 < r) :
    arcAngles w r p = (-(w / r + 2 * p) / 2, (w / r + 2 * p) / 2) ∧
    (arcAngles w r p).2 - (arcAngles w r p).1 = w / r + 2 * p ∧
    (arcAngles w r p).1 + (arcAngles w r p).2 = 0 ∧
    (w = 0 → (arcAngles w r p).2 - (arcAngles w r p).1 = 2 * p) := by
  refine ⟨rfl, by simp only [arcAngles]; ring, by simp only [arcAngles]; ring, ?_⟩
  rintro rfl
  simp only [arcAngles, zero_div, zero_add]
  ring

theorem arc_allocator_centered_witness :
    (0 : ℝ) ≤ 0 ∧ (0 : ℝ) < 1 ∧
    (arcAngles 0 1 1).2 - (arcAngles 0 1 1).1 = 2 * 1 :=
  ⟨le_refl 0, one_pos, (arc_allocator_centered 0 1 1 (le_refl 0) one_pos).2.2.2 rfl⟩

/-! ## Theorems: MeshMerger (claim C3) -/

theorem foldl_mergeStep (ms : List Mesh) : ∀ (vs : List Vec3) (fs : List (List ℕ)) (off : ℕ),
    ms.foldl mergeStep (vs, fs, off) =
      (vs ++ (ms.map Mesh.verts).flatten,
       fs ++ specMergedFaces off ms,
       off + (ms.map (fun m => m.verts.length)).sum) := by
  induction ms with
  | nil => intro vs fs off; simp [specMergedFaces]
  | cons m rest ih =>
      intro vs fs off
      simp [List.foldl_cons, mergeStep, ih, specMergedFaces, List.append_assoc,
        Nat.add_assoc]

theorem length_specMergedFaces : ∀ (off : ℕ) (ms : List Mesh),
    (specMergedFaces off ms).length = (ms.map (fun m => m.faces.length)).sum := by
  intro off ms
  induction ms generalizing off with
  | nil => simp [specMergedFaces]
  | cons m rest ih => simp [specMergedFaces, ih]

/-- C3: for input meshes whose faces are in range, the merged mesh
(before the external welding operator) has exactly the concatenated
vertex lists in input order and the offset-re-indexed face lists;
merging a mesh with an empty mesh leaves its vertex and face counts
unchanged, and in general the merged counts are the sums of the
inputs' counts. -/
theorem mesh_merger_concat (ms : List Mesh) (m : Mesh) (h : facesInRange ms) :
    (mergeMeshes ms).verts = (ms.map Mesh.verts).flatten ∧
    (mergeMeshes ms).faces = specMergedFaces 0 ms ∧
    ((mergeMeshes [m, emptyMesh]).verts.length = m.verts.length ∧
     (mergeMeshes [m, emptyMesh]).faces.length = m.faces.length) ∧
    ((mergeMeshes ms).verts.length = (ms.map (fun mm => mm.verts.length)).sum ∧
     (mergeMeshes ms).faces.length = (ms.map (fun mm => mm.faces.length)).sum) := by
  have key := foldl_mergeStep ms [] [] 0
  have hv : (mergeMeshes ms).verts = (ms.map Mesh.verts).flatten := by
    simp [mergeMeshes, key]
  have hf : (mergeMeshes ms).faces = specMergedFaces 0 ms := by
    simp [mergeMeshes, key]
  refine ⟨hv, hf, ⟨?_, ?_⟩, ?_, ?_⟩
  · simp [mergeMeshes, mergeStep, emptyMesh]
  · simp [mergeMeshes, mergeStep, emptyMesh]
  · rw [hv]; simp [List.length_flatten, Function.comp_def]
  · rw [hf, length_specMergedFaces]

theorem mesh_merger_concat_witness :
    facesInRange [⟨[⟨0, 0, 0⟩, ⟨1, 0, 0⟩], [[0, 1, 0]]⟩] ∧
    (mergeMeshes [⟨[⟨0, 0, 0⟩, ⟨1, 0, 0⟩], [[0, 1, 0]]⟩]).verts.length =
      ([(⟨[⟨0, 0, 0⟩, ⟨1, 0, 0⟩], [[0, 1, 0]]⟩ : Mesh)].map
        (fun mm => mm.verts.length)).sum :=
  ⟨by decide,
   (mesh_merger_concat [⟨[⟨0, 0, 0⟩, ⟨1, 0, 0⟩], [[0, 1, 0]]⟩]
     ⟨[⟨0, 0, 0⟩, ⟨1, 0, 0⟩], [[0, 1, 0]]⟩ (by decide)).2.2.2.1⟩

/-! ## Theorems: text length limit (claim C9) -/

/-- C9: if the text content exceeds 500 characters after newline and
carriage-return removal, `validate_config` returns false in both script
variants (ring-emboss only strips carriage returns, which can only
leave the content longer), and the run reports input-validation failure
(exit code 1). -/
theorem text_length_limit (c : Conf) (fontExists dirsOk : Bool)
    (h : 500 < (cleanedFlow c.text.content).length) :
    validateConfigFlow c fontExists dirsOk = false ∧
    validateConfigEmboss c fontExists dirsOk = false ∧
    validationGate (validateConfigFlow c fontExists dirsOk) = some 1 := by
  have hEmb : 500 < (cleanedEmboss c.text.content).length := by
    have hle : (cleanedFlow c.text.content).length ≤ (cleanedEmboss c.text.content).length :=
      ((List.filter_sublist _).filter _).length_le
    omega
  have h1 : validateConfigFlow c fontExists dirsOk = false := by
    unfold validateConfigFlow
    repeat' split
    all_goals simp_all
  have h2 : validateConfigEmboss c fontExists dirsOk = false := by
    unfold validateConfigEmboss
    repeat' split
    all_goals simp_all
  exact ⟨h1, h2, by rw [h1]; rfl⟩

def confLong : Conf :=
  ⟨⟨10, 20, 5, 256, 64⟩, ⟨List.replicate 501 'a', true, 8, 1, "normal"⟩⟩

set_option maxRecDepth 10000 in
theorem text_length_limit_witness :
    500 < (cleanedFlow confLong.text.content).length ∧
    validateConfigFlow confLong true true = false :=
  ⟨by decide, (text_length_limit confLong true true (by decide)).1⟩

/-! ## Edges of a face list

A face `[v0, v1, ..., vk]` is a cyclic polygon; its directed edges are
`(v0,v1), (v1,v2), ..., (vk,v0)`.  Undirected edges are directed edges
normalised so the smaller index comes first.  "Watertight" (spec §8,
glossary) means every undirected edge belongs to exactly two faces. -/

def dedges : List ℕ → List (ℕ × ℕ)
  | [] => []
  | a :: l => (a :: l).zip (l ++ [a])

def allDE (faces : List (List ℕ)) : List (ℕ × ℕ) := faces.flatMap dedges

def nedge (p : ℕ × ℕ) : ℕ × ℕ := if p.1 ≤ p.2 then p else (p.2, p.1)

def undirectedEdges (faces : List (List ℕ)) : List (ℕ × ℕ) :=
  (allDE faces).map nedge

def watertight (faces : List (List ℕ)) : Prop :=
  ∀ e ∈ undirectedEdges faces, (undirectedEdges faces).count e = 2

instance (faces : List (List ℕ)) : Decidable (watertight faces) := by
  unfold watertight; infer_instance

/-- Consistent orientation: no directed edge is used twice (each edge is
traversed once in each direction by the two faces sharing it). -/
def consistentlyOriented (faces : List (List ℕ)) : Prop := (allDE faces).Nodup

instance (faces : List (List ℕ)) : Decidable (consistentlyOriented faces) := by
  unfold consistentlyOriented; infer_instance

def isTriangulated (m : Mesh) : Prop := ∀ f ∈ m.faces, f.length = 3

instance (m : Mesh) : Decidable (isTriangulated m) := by
  unfold isTriangulated; infer_instance

def meshFacesInRange (m : Mesh) : Prop :=
  ∀ f ∈ m.faces, ∀ i ∈ f, i < m.verts.length

instance (m : Mesh) : Decidable (meshFacesInRange m) := by
  unfold meshFacesInRange; infer_instance

/-! ## VolumeEstimator (`calculate_mesh_volume`, both scripts)

From the source: triangulate the mesh, then for every triangular face
accumulate `volume += (center.dot(normal) * area) / 3.0` where `center`
is the face centroid (`calc_center_median`), `normal` the unit face
normal and `area` the face area; finally `volume = abs(volume)`,
`volume_mm3 = volume`, `volume_cm3 = volume_mm3 / 1000.0`.  The
triangulation itself is a Blender operator; per spec §4.6 non-triangular
faces are fan-triangulated from each face's first vertex (for already
triangular faces this is the identity, and the claims below are about
triangulated input). -/

noncomputable def normv (v : Vec3) : ℝ := Real.sqrt (dotv v v)

noncomputable def triCentroid (a b c : Vec3) : Vec3 :=
  ⟨(a.x + b.x + c.x) / 3, (a.y + b.y + c.y) / 3, (a.z + b.z + c.z) / 3⟩

/-- Unit face normal (Blender's `face.normal`); for a degenerate face the
cross product is zero and so is the normal, matching Blender. -/
noncomputable def triNormal (a b c : Vec3) : Vec3 :=
  let n := crossv (subv b a) (subv c a)
  ⟨n.x / normv n, n.y / normv n, n.z / normv n⟩

noncomputable def triArea (a b c : Vec3) : ℝ :=
  normv (crossv (subv b a) (subv c a)) / 2

noncomputable def triContribution (a b c : Vec3) : ℝ :=
  dotv (triCentroid a b c) (triNormal a b c) * triArea a b c / 3

def fanFrom (v0 : ℕ) : List ℕ → List (ℕ × ℕ × ℕ)
  | a :: b :: rest => (v0, a, b) :: fanFrom v0 (b :: rest)
  | _ => []

def fanTriangulate : List ℕ → List (ℕ × ℕ × ℕ)
  | v0 :: rest => fanFrom v0 rest
  | [] => []

def vertAt (m : Mesh) (i : ℕ) : Vec3 := m.verts.getD i ⟨0, 0, 0⟩

noncomputable def meshVolumeMM3 (m : Mesh) : ℝ :=
  |(m.faces.flatMap fanTriangulate).foldl
    (fun acc t => acc + triContribution (vertAt m t.1) (vertAt m t.2.1) (vertAt m t.2.2)) 0|

noncomputable def meshVolumeCM3 (m : Mesh) : ℝ := meshVolumeMM3 m / 1000

/-- `export_stl` (ring-flow): `weight_g = volume_cm3 * material_density`. -/
noncomputable def massGrams (m : Mesh) (density : ℝ) : ℝ :=
  meshVolumeCM3 m * density

theorem foldl_add_eq_sum {α : Type} (g : α → ℝ) (l : List α) :
    ∀ init : ℝ, l.foldl (fun acc t => acc + g t) init = init + (l.map g).sum := by
  induction l with
  | nil => intro init; simp
  | cons t rest ih => intro init; simp [ih]; ring

theorem fanTriangulate_of_triangle {f : List ℕ} (h : f.length = 3) :
    ∃ a b c, f = [a, b, c] ∧ fanTriangulate f = [(a, b, c)] := by
  obtain ⟨a, b, c, rfl⟩ := List.length_eq_three.mp h
  exact ⟨a, b, c, rfl, rfl⟩

theorem flatMap_fan_of_triangulated :
    ∀ fs : List (List ℕ), (∀ f ∈ fs, f.length = 3) →
      fs.flatMap fanTriangulate = fs.map (fun f => (f.getD 0 0, f.getD 1 0, f.getD 2 0)) := by
  intro fs h
  induction fs with
  | nil => rfl
  | cons f rest ih =>
      obtain ⟨a, b, c, rfl, hfan⟩ := fanTriangulate_of_triangle (h f (by simp))
      simp [List.flatMap_cons, hfan, ih (fun g hg => h g (by simp [hg])), List.getD]

/-- C1: on a triangulated, closed, consistently oriented mesh the volume
estimator returns the absolute value of `Σ dot(C,N)·A/3` over all
triangles — equivalently, of the sum over the faces of the contribution
of each face's three vertices; the cm³ value is the mm³ value divided by
1000, and the reported mass is `volume_cm3 * density`. -/
theorem volume_estimator_formula (m : Mesh) (d : ℝ)
    (h1 : meshFacesInRange m) (h2 : isTriangulated m)
    (h3 : watertight m.faces) (h4 : consistentlyOriented m.faces) :
    meshVolumeMM3 m =
      |((m.faces.flatMap fanTriangulate).map
        (fun t => dotv (triCentroid (vertAt m t.1) (vertAt m t.2.1) (vertAt m t.2.2))
          (triNormal (vertAt m t.1) (vertAt m t.2.1) (vertAt m t.2.2)) *
          triArea (vertAt m t.1) (vertAt m t.2.1) (vertAt m t.2.2) / 3)).sum| ∧
    meshVolumeMM3 m =
      |(m.faces.map
        (fun f => triContribution (vertAt m (f.getD 0 0)) (vertAt m (f.getD 1 0))
          (vertAt m (f.getD 2 0)))).sum| ∧
    meshVolumeCM3 m = meshVolumeMM3 m / 1000 ∧
    massGrams m d = meshVolumeCM3 m * d := by
  have hflat := flatMap_fan_of_triangulated m.faces h2
  constructor
  · rw [meshVolumeMM3, foldl_add_eq_sum, zero_add]
    rfl
  constructor
  · rw [meshVolumeMM3, foldl_add_eq_sum, zero_add, hflat, List.map_map]
    rfl
  exact ⟨rfl, rfl⟩

def tetraMesh : Mesh :=
  ⟨[⟨0, 0, 0⟩, ⟨1, 0, 0⟩, ⟨0, 1, 0⟩, ⟨0, 0, 1⟩],
   [[0, 2, 1], [0, 1, 3], [0, 3, 2], [1, 2, 3]]⟩

theorem volume_estimator_formula_witness :
    meshFacesInRange tetraMesh ∧ isTriangulated tetraMesh ∧
    watertight tetraMesh.faces ∧ consistentlyOriented tetraMesh.faces ∧
    massGrams tetraMesh 2 = meshVolumeCM3 tetraMesh * 2 :=
  ⟨by decide, by decide, by decide, by decide,
   (volume_estimator_formula tetraMesh 2 (by decide) (by decide) (by decide)
     (by decide)).2.2.2⟩

/-! ## CylindricalWrap (`curve_text_mesh`, both scripts)

From the source, per vertex with centred coordinates `(x, y, z)`:
`angle = -(x/radius)` for inverted text else `x/radius`;
`r = radius + y`; new position `(r·sin(angle), r·cos(angle), z)`. -/

/-- `math.atan2(a, b)` (the source always calls it as `atan2(x, y)`). -/
noncomputable def atan2 (a b : ℝ) : ℝ :=
  Complex.arg (Complex.ofReal b + Complex.ofReal a * Complex.I)

noncomputable def wrapVertex (radius : ℝ) (inverted : Bool) (cx yy zz : ℝ) : Vec3 :=
  let angle := if inverted then -(cx / radius) else cx / radius
  let r := radius + yy
  ⟨r * Real.sin angle, r * Real.cos angle, zz⟩

/-- Recovering the flat x coordinate from a wrapped vertex: the angle read
back off the wrapped position, times the wrap radius (spec §8). -/
noncomputable def recoverX (radius : ℝ) (p : Vec3) : ℝ := atan2 p.x p.y * radius

theorem atan2_polar (r θ : ℝ) (hr : 0 < r) (hθ : θ ∈ Set.Ioc (-Real.pi) Real.pi) :
    atan2 (r * Real.sin θ) (r * Real.cos θ) = θ := by
  unfold atan2
  have hrw : (Complex.ofReal (r * Real.cos θ) + Complex.ofReal (r * Real.sin θ) * Complex.I)
      = (r : ℂ) * (Complex.cos θ + Complex.sin θ * Complex.I) := by
    push_cast [Complex.ofReal_cos, Complex.ofReal_sin]
    ring
  rw [hrw, Complex.arg_real_mul _ hr, Complex.arg_cos_add_sin_mul_I hθ]

/-- C6: the cylindrical wrap is locally invertible.  For `|x| < π·radius`
(and the code's normalised `y ≥ 0`), reading the angle back from the
wrapped position and multiplying by the radius reproduces the centred x
exactly for normal direction (so in particular within 1e-6 relative
tolerance), and reproduces `-x` for inverted direction. -/
theorem cylindrical_wrap_invertible (radius cx yy zz : ℝ)
    (h1 : 0 < radius) (h2 : 0 ≤ yy) (h3 : |cx| < Real.pi * radius) :
    recoverX radius (wrapVertex radius false cx yy zz) = cx ∧
    recoverX radius (wrapVertex radius true cx yy zz) = -cx ∧
    |recoverX radius (wrapVertex radius false cx yy zz) - cx| ≤ (1 / 1000000) * |cx| := by
  have hr : 0 < radius + yy := by linarith
  have habs : |cx / radius| < Real.pi := by
    rw [abs_div, abs_of_pos h1, div_lt_iff₀ h1]
    linarith [h3]
  have hmem : cx / radius ∈ Set.Ioc (-Real.pi) Real.pi := by
    rcases abs_lt.mp habs with ⟨hl, hu⟩
    exact ⟨hl, le_of_lt hu⟩
  have hmem2 : -(cx / radius) ∈ Set.Ioc (-Real.pi) Real.pi := by
    rcases abs_lt.mp habs with ⟨hl, hu⟩
    constructor <;> [linarith; linarith]
  have hnormal : recoverX radius (wrapVertex radius false cx yy zz) = cx := by
    show atan2 ((radius + yy) * Real.sin (cx / radius))
        ((radius + yy) * Real.cos (cx / radius)) * radius = cx
    rw [atan2_polar _ _ hr hmem, div_mul_cancel₀ _ (ne_of_gt h1)]
  have hinv : recoverX radius (wrapVertex radius true cx yy zz) = -cx := by
    show atan2 ((radius + yy) * Real.sin (-(cx / radius)))
        ((radius + yy) * Real.cos (-(cx / radius))) * radius = -cx
    rw [atan2_polar _ _ hr hmem2, neg_mul, div_mul_cancel₀ _ (ne_of_gt h1)]
  refine ⟨hnormal, hinv, ?_⟩
  rw [hnormal, sub_self, abs_zero]
  positivity

theorem cylindrical_wrap_invertible_witness :
    (0 : ℝ) < 1 ∧ (0 : ℝ) ≤ 0 ∧ |(1 : ℝ)| < Real.pi * 1 ∧
    recoverX 1 (wrapVertex 1 false 1 0 0) = 1 := by
  have h3 : |(1 : ℝ)| < Real.pi * 1 := by
    rw [abs_one, mul_one]
    linarith [Real.pi_gt_three]
  exact ⟨one_pos, le_refl 0, h3,
    (cylindrical_wrap_invertible 1 1 0 0 one_pos (le_refl 0) h3).1⟩

/-! ## AnnulusMeshBuilder, restricted arc (`create_partial_ring`, ring-flow)

From the source:
  `segments_for_arc = max(3, int(radial_segments * ring_span / (2 * math.pi)))`
and then at every axial level the outer loop runs
`for r_idx in range(segments_for_arc + 1)` and the inner loop likewise,
so `segments_for_arc + 1` vertices are placed on each circle per level.
Python's `int()` truncates toward zero; under `max 3 _` this agrees with
`Nat.floor` for every real argument (negative arguments truncate to a
non-positive value, and both sides then give 3). -/

noncomputable def segmentsForArc (radialSegments : ℕ) (span : ℝ) : ℕ :=
  max 3 ⌊(radialSegments : ℝ) * span / (2 * Real.pi)⌋₊

noncomputable def outerArcRow (outerRadius ringStart ringSpan : ℝ) (segs : ℕ) (zc : ℝ) :
    List Vec3 :=
  (List.range (segs + 1)).map fun (rIdx : ℕ) =>
    let angle := ringStart + ringSpan * (rIdx : ℝ) / (segs : ℝ)
    ⟨outerRadius * Real.sin angle, outerRadius * Real.cos angle, zc⟩

noncomputable def innerArcRow (innerRadius ringStart ringSpan : ℝ) (segs : ℕ) (zc : ℝ) :
    List Vec3 :=
  (List.range (segs + 1)).map fun (rIdx : ℕ) =>
    let angle := ringStart + ringSpan * (rIdx : ℝ) / (segs : ℝ)
    ⟨innerRadius * Real.sin angle, innerRadius * Real.cos angle, zc⟩

noncomputable def createArcRingVerts (innerR outerR len ringStart ringSpan : ℝ)
    (rs vs : ℕ) : List Vec3 :=
  (List.range (vs + 1)).flatMap fun (vIdx : ℕ) =>
    let zc := -len / 2 + len * (vIdx : ℝ) / (vs : ℝ)
    outerArcRow outerR ringStart ringSpan (segmentsForArc rs ringSpan) zc ++
      innerArcRow innerR ringStart ringSpan (segmentsForArc rs ringSpan) zc

theorem length_outerArcRow (oR rS sp : ℝ) (segs : ℕ) (zc : ℝ) :
    (outerArcRow oR rS sp segs zc).length = segs + 1 := by
  unfold outerArcRow
  rw [List.length_map, List.length_range]

theorem length_innerArcRow (iR rS sp : ℝ) (segs : ℕ) (zc : ℝ) :
    (innerArcRow iR rS sp segs zc).length = segs + 1 := by
  unfold innerArcRow
  rw [List.length_map, List.length_range]

/-- C5 counterexample: for `radial_segments = 128` and an arc of span
`21π/320` (so `R·s/2π = 4.2`), the builder places 5 vertices on the
outer circle at each axial level, while `max(3, round(R·s/2π)) = 4`:
the claimed count is wrong (the code truncates and adds one, sampling
both arc endpoints). -/
theorem arc_segments_counterexample :
    (outerArcRow 10 0 (21 * Real.pi / 320) (segmentsForArc 128 (21 * Real.pi / 320)) 0).length
      = 5 ∧
    max 3 (round (((128 : ℕ) : ℝ) * (21 * Real.pi / 320) / (2 * Real.pi))).toNat = 4 := by
  have hpi := Real.pi_ne_zero
  have hX : ((128 : ℕ) : ℝ) * (21 * Real.pi / 320) / (2 * Real.pi) = 21 / 5 := by
    push_cast
    field_simp
    ring
  have hfloor : ⌊(21 / 5 : ℝ)⌋₊ = 4 := by
    rw [Nat.floor_eq_iff (by norm_num)]
    norm_num
  have hround : round ((21 / 5 : ℝ)) = 4 := by
    rw [round_eq, show (21 / 5 : ℝ) + 1 / 2 = 47 / 10 by norm_num, Int.floor_eq_iff]
    constructor <;> norm_num
  constructor
  · rw [length_outerArcRow]
    unfold segmentsForArc
    rw [hX, hfloor]
    rfl
  · rw [hX, hround]
    rfl

/-- C5 amended: for every restricted arc of span `s ∈ (0, 2π)` the
builder places `max(3, ⌊R·s/2π⌋) + 1` vertices on the outer circle at
each axial level (both arc endpoints are sampled), and the same count on
the inner circle. -/
theorem arc_segments_amended (rs : ℕ) (innerR outerR ringStart s zc : ℝ)
    (h1 : 0 < s) (h2 : s < 2 * Real.pi) :
    (outerArcRow outerR ringStart s (segmentsForArc rs s) zc).length
      = max 3 ⌊(rs : ℝ) * s / (2 * Real.pi)⌋₊ + 1 ∧
    (innerArcRow innerR ringStart s (segmentsForArc rs s) zc).length
      = (outerArcRow outerR ringStart s (segmentsForArc rs s) zc).length := by
  constructor
  · rw [length_outerArcRow]
    rfl
  · rw [length_outerArcRow, length_innerArcRow]

theorem arc_segments_amended_witness :
    (0 : ℝ) < Real.pi ∧ Real.pi < 2 * Real.pi ∧
    (innerArcRow 8 0 Real.pi (segmentsForArc 128 Real.pi) 0).length
      = (outerArcRow 10 0 Real.pi (segmentsForArc 128 Real.pi) 0).length := by
  have h1 : (0 : ℝ) < Real.pi := Real.pi_pos
  have h2 : Real.pi < 2 * Real.pi := by linarith
  exact ⟨h1, h2, (arc_segments_amended 128 8 10 0 Real.pi 0 h1 h2).2⟩

/-! ## CylindricalWrap, truncation mode (`curve_text_mesh`, ring-emboss)

From the source: compute the bounding box, centre the text
(`x - text_center_x`, `y + y_offset` with `y_offset = -min_y`,
`z - text_center_z`), set
`available_circumference = 2πr - 2`, and for each vertex
`if abs(x) > available_circumference / 2: continue` — i.e. the vertex is
left at its original position and no vertex or face is removed;
otherwise the vertex is wrapped. -/

noncomputable def listMin (l : List ℝ) : ℝ := l.foldl min (l.headD 0)

noncomputable def listMax (l : List ℝ) : ℝ := l.foldl max (l.headD 0)

noncomputable def centerX (m : Mesh) : ℝ :=
  (listMin (m.verts.map Vec3.x) + listMax (m.verts.map Vec3.x)) / 2

noncomputable def yOffset (m : Mesh) : ℝ := -listMin (m.verts.map Vec3.y)

noncomputable def centerZ (m : Mesh) : ℝ :=
  (listMin (m.verts.map Vec3.z) + listMax (m.verts.map Vec3.z)) / 2

/-- `circumference - 2` safety gap: `2 * math.pi * radius - 2`. -/
noncomputable def availCirc (radius : ℝ) : ℝ := 2 * Real.pi * radius - 2

noncomputable def curveStepEmboss (radius : ℝ) (inverted : Bool)
    (cX yO cZ avail : ℝ) (v : Vec3) : Vec3 :=
  let cx := v.x - cX
  let yy := v.y + yO
  let zz := v.z - cZ
  if |cx| > avail / 2 then v
  else wrapVertex radius inverted cx yy zz

noncomputable def curveTextMeshEmboss (radius : ℝ) (inverted : Bool) (m : Mesh) : Mesh :=
  ⟨m.verts.map
    (curveStepEmboss radius inverted (centerX m) (yOffset m) (centerZ m) (availCirc radius)),
   m.faces⟩

def truncMesh : Mesh := ⟨[⟨1, 0, 0⟩, ⟨-1, 0, 0⟩, ⟨0, 0, 0⟩], [[0, 1, 2]]⟩

theorem centerX_truncMesh : centerX truncMesh = 0 := by
  norm_num [centerX, truncMesh, listMin, listMax, min_def, max_def]

theorem availCirc_recip_pi : availCirc (1 / Real.pi) = 0 := by
  unfold availCirc
  rw [mul_one_div, mul_div_assoc, div_self Real.pi_ne_zero]
  ring

/-- C7 counterexample: with wrap radius `1/π` the available half-span is
0, so vertex 0 of `truncMesh` (centred x = 1) is beyond the configured
maximum half-span; yet the wrapped output still contains it, unchanged,
and still contains the face `[0, 1, 2]` referencing it — nothing is
dropped, refuting the claim that the vertex and its faces are absent. -/
theorem truncation_counterexample :
    |(truncMesh.verts.getD 0 ⟨0, 0, 0⟩).x - centerX truncMesh|
      > availCirc (1 / Real.pi) / 2 ∧
    (curveTextMeshEmboss (1 / Real.pi) false truncMesh).faces = [[0, 1, 2]] ∧
    (curveTextMeshEmboss (1 / Real.pi) false truncMesh).verts.length = 3 ∧
    (curveTextMeshEmboss (1 / Real.pi) false truncMesh).verts.getD 0 ⟨0, 0, 0⟩
      = truncMesh.verts.getD 0 ⟨0, 0, 0⟩ := by
  have hgt : |(truncMesh.verts.getD 0 ⟨0, 0, 0⟩).x - centerX truncMesh|
      > availCirc (1 / Real.pi) / 2 := by
    rw [centerX_truncMesh, availCirc_recip_pi]
    show |(1 : ℝ) - 0| > 0 / 2
    norm_num
  refine ⟨hgt, rfl, by simp [curveTextMeshEmboss, truncMesh], ?_⟩
  show (curveStepEmboss (1 / Real.pi) false (centerX truncMesh) (yOffset truncMesh)
      (centerZ truncMesh) (availCirc (1 / Real.pi)) ⟨1, 0, 0⟩) = ⟨1, 0, 0⟩
  unfold curveStepEmboss
  rw [if_pos]
  exact hgt

/-- C7 amended: in truncation mode a vertex whose centred `|x|` exceeds
the available half-span is merely skipped by the wrap transform: it
stays in the output mesh at its original coordinates, the face list is
unchanged, and the vertex count is preserved. -/
theorem truncation_amended (radius : ℝ) (inverted : Bool) (m : Mesh) (j : ℕ)
    (hj : j < m.verts.length)
    (hout : |(m.verts.getD j ⟨0, 0, 0⟩).x - centerX m| > availCirc radius / 2) :
    (curveTextMeshEmboss radius inverted m).verts.getD j ⟨0, 0, 0⟩
      = m.verts.getD j ⟨0, 0, 0⟩ ∧
    (curveTextMeshEmboss radius inverted m).faces = m.faces ∧
    (curveTextMeshEmboss radius inverted m).verts.length = m.verts.length := by
  refine ⟨?_, rfl, by simp [curveTextMeshEmboss]⟩
  have hj2 : j < (m.verts.map (curveStepEmboss radius inverted (centerX m) (yOffset m)
      (centerZ m) (availCirc radius))).length := by simpa using hj
  rw [show (curveTextMeshEmboss radius inverted m).verts
      = m.verts.map (curveStepEmboss radius inverted (centerX m) (yOffset m)
        (centerZ m) (availCirc radius)) from rfl]
  rw [List.getD_eq_getElem _ _ hj2, List.getElem_map, ← List.getD_eq_getElem _ (⟨0, 0, 0⟩ : Vec3) hj]
  unfold curveStepEmboss
  rw [if_pos hout]

theorem truncation_amended_witness :
    1 < truncMesh.verts.length ∧
    (curveTextMeshEmboss (1 / Real.pi) true truncMesh).verts.getD 1 ⟨0, 0, 0⟩
      = truncMesh.verts.getD 1 ⟨0, 0, 0⟩ := by
  have hout : |(truncMesh.verts.getD 1 ⟨0, 0, 0⟩).x - centerX truncMesh|
      > availCirc (1 / Real.pi) / 2 := by
    rw [centerX_truncMesh, availCirc_recip_pi]
    show |(-1 : ℝ) - 0| > 0 / 2
    norm_num
  exact ⟨by norm_num [truncMesh],
    (truncation_amended (1 / Real.pi) true truncMesh 1 (by norm_num [truncMesh]) hout).1⟩

/-! ## Combine stage and export gating (`combine_ring_and_text` and
`run`, ring-flow)

`combine_ring_and_text` returns `None` only when a Blender call raises
an exception; the pure merge itself always yields a mesh object — there
is no check that any face survived.  `run` (lines 1261-1269) returns
exit code 3 with no export only when the combine result is `None`;
otherwise `export_stl` is invoked unconditionally (returning exit code
2 when the file write fails, 0 on success). -/

def combineRingAndText (ring text : Mesh) : Option Mesh :=
  some (mergeMeshes [ring, text])

/-- `(exit code, whether STL export was attempted)` for the tail of
`run` after the combine stage; `ioOk` is the external file-write
outcome. -/
def runExportStage (finalObj : Option Mesh) (ioOk : Bool) : ℤ × Bool :=
  match finalObj with
  | none => (3, false)
  | some _ => (if ioOk then 0 else 2, true)

/-- C8 counterexample: a run whose merged mesh has zero faces does not
abort — combine succeeds, the STL export is attempted, and the exit
code is 0: the claimed fatal "no valid face" class does not exist in
the code. -/
theorem no_face_abort_counterexample :
    (combineRingAndText ⟨[⟨0, 0, 0⟩], []⟩ ⟨[], []⟩).map Mesh.faces = some [] ∧
    runExportStage (combineRingAndText ⟨[⟨0, 0, 0⟩], []⟩ ⟨[], []⟩) true = (0, true) := by
  exact ⟨rfl, rfl⟩

/-- C8 amended: generation aborts with failure code 3 and no export
only when the combine stage yields no mesh (a raised exception); when
combine returns a mesh — zero faces or not — the export is always
attempted. -/
theorem no_face_abort_amended (ring text : Mesh) (ioOk : Bool) :
    (combineRingAndText ring text).isSome = true ∧
    (runExportStage (combineRingAndText ring text) ioOk).2 = true ∧
    runExportStage none ioOk = (3, false) :=
  ⟨rfl, rfl, rfl⟩

/-! ## BoundaryStitcher scan (`create_transition_wedges`, ring-flow)

From the source (lines 813-832): for every text-mesh vertex,
`if x != 0 or y != 0:` compute `angle = math.atan2(x, y)` and update the
running leftmost/rightmost angle and the corresponding vertex clusters
(reset on a strictly more extreme angle, append within a 0.001
tolerance).  `float('inf')` / `float('-inf')` initial extremes are
modelled by `Option`: `none` compares as more extreme than everything
and has no vertices within tolerance. -/

structure ScanState where
  leftAngle : Option ℝ
  rightAngle : Option ℝ
  leftCluster : List Vec3
  rightCluster : List Vec3

noncomputable def scanUpd (st : ScanState) (v : Vec3) : ScanState :=
  let angle := atan2 v.x v.y
  let st1 :=
    match st.leftAngle with
    | none => { st with leftAngle := some angle, leftCluster := [v] }
    | some la =>
        if angle < la then { st with leftAngle := some angle, leftCluster := [v] }
        else if |angle - la| < 1 / 1000 then
          { st with leftCluster := st.leftCluster ++ [v] }
        else st
  match st1.rightAngle with
  | none => { st1 with rightAngle := some angle, rightCluster := [v] }
  | some ra =>
      if ra < angle then { st1 with rightAngle := some angle, rightCluster := [v] }
      else if |angle - ra| < 1 / 1000 then
        { st1 with rightCluster := st1.rightCluster ++ [v] }
      else st1

noncomputable def scanStep (st : ScanState) (v : Vec3) : ScanState :=
  if v.x ≠ 0 ∨ v.y ≠ 0 then scanUpd st v else st

def initScan : ScanState := ⟨none, none, [], []⟩

noncomputable def boundaryScan (verts : List Vec3) : ScanState :=
  verts.foldl scanStep initScan

theorem foldl_scanStep_id (l : List Vec3) (h : ∀ v ∈ l, v.x = 0 ∧ v.y = 0) :
    ∀ st : ScanState, l.foldl scanStep st = st := by
  induction l with
  | nil => intro st; rfl
  | cons v rest ih =>
      intro st
      have hstep : scanStep st v = st := by
        unfold scanStep
        rw [if_neg]
        push_neg
        exact ⟨(h v (by simp)).1, (h v (by simp)).2⟩
      rw [List.foldl_cons, hstep]
      exact ih (fun w hw => h w (by simp [hw])) st

theorem foldl_scanStep_filter (l : List Vec3) : ∀ st : ScanState,
    l.foldl scanStep st = (l.filter fun v => decide (v.x ≠ 0 ∨ v.y ≠ 0)).foldl scanStep st := by
  induction l with
  | nil => intro st; rfl
  | cons v rest ih =>
      intro st
      by_cases hv : v.x ≠ 0 ∨ v.y ≠ 0
      · rw [List.foldl_cons, List.filter_cons_of_pos (by simpa using hv), List.foldl_cons, ih]
      · rw [List.foldl_cons, List.filter_cons_of_neg (by simpa using hv),
          show scanStep st v = st from if_neg hv, ih]

/-- C10: the boundary scan never reaches the `atan2` branch for a vertex
at `x = 0, y = 0`: such a vertex leaves the scan state unchanged, the
whole scan equals the scan of the origin-free sublist, and a text mesh
whose vertices all lie on the wrap axis produces empty left/right
boundary clusters. -/
theorem atan2_guard (verts : List Vec3) :
    (∀ (st : ScanState) (v : Vec3), v.x = 0 → v.y = 0 → scanStep st v = st) ∧
    boundaryScan verts
      = boundaryScan (verts.filter fun v => decide (v.x ≠ 0 ∨ v.y ≠ 0)) ∧
    ((∀ v ∈ verts, v.x = 0 ∧ v.y = 0) →
      (boundaryScan verts).leftCluster = [] ∧ (boundaryScan verts).rightCluster = []) := by
  have hid : ∀ (st : ScanState) (v : Vec3), v.x = 0 → v.y = 0 → scanStep st v = st := by
    intro st v hx hy
    unfold scanStep
    rw [if_neg]
    push_neg
    exact ⟨hx, hy⟩
  refine ⟨hid, foldl_scanStep_filter verts initScan, ?_⟩
  intro hall
  rw [show boundaryScan verts = initScan from foldl_scanStep_id verts hall initScan]
  exact ⟨rfl, rfl⟩

theorem atan2_guard_witness :
    (boundaryScan [⟨0, 0, 5⟩]).leftCluster = [] ∧
    (boundaryScan [⟨0, 0, 5⟩]).rightCluster = [] :=
  (atan2_guard [⟨0, 0, 5⟩]).2.2 (by intro v hv; simp at hv; simp [hv])

/-! ## AnnulusMeshBuilder, full circle (`create_ring`, ring-emboss)

From the source: for `v_idx in range(vertical_segments + 1)` place
`radial_segments` outer-circle vertices then `radial_segments`
inner-circle vertices at height `z = -length/2 + length*v_idx/vs`.
With `verts_per_ring = radial_segments * 2`, the outer vertex of level
`v` at angular index `r` sits at flat index `v*verts_per_ring + r` and
the inner one at `v*verts_per_ring + radial_segments + r`.  Faces (all
quads, `next_r = (r_idx + 1) % radial_segments`):
outer side `[o(v,r), o(v,r+1), o(v+1,r+1), o(v+1,r)]`,
inner side `[i(v,r), i(v+1,r), i(v+1,r+1), i(v,r+1)]`,
top `[o(vs,r), o(vs,r+1), i(vs,r+1), i(vs,r)]`,
bottom `[o(0,r), i(0,r), i(0,r+1), o(0,r+1)]`. -/

def oIdx (rs v r : ℕ) : ℕ := v * (2 * rs) + r

def iIdx (rs v r : ℕ) : ℕ := v * (2 * rs) + (rs + r)

def outerFace (rs v r : ℕ) : List ℕ :=
  [oIdx rs v r, oIdx rs v ((r + 1) % rs), oIdx rs (v + 1) ((r + 1) % rs), oIdx rs (v + 1) r]

def innerFace (rs v r : ℕ) : List ℕ :=
  [iIdx rs v r, iIdx rs (v + 1) r, iIdx rs (v + 1) ((r + 1) % rs), iIdx rs v ((r + 1) % rs)]

def topFace (rs vs r : ℕ) : List ℕ :=
  [oIdx rs vs r, oIdx rs vs ((r + 1) % rs), iIdx rs vs ((r + 1) % rs), iIdx rs vs r]

def bottomFace (rs r : ℕ) : List ℕ :=
  [oIdx rs 0 r, iIdx rs 0 r, iIdx rs 0 ((r + 1) % rs), oIdx rs 0 ((r + 1) % rs)]

def createRingFaces (rs vs : ℕ) : List (List ℕ) :=
  ((List.range vs).flatMap fun v =>
    ((List.range rs).map fun r => outerFace rs v r) ++
      ((List.range rs).map fun r => innerFace rs v r)) ++
  ((List.range rs).map fun r => topFace rs vs r) ++
  ((List.range rs).map fun r => bottomFace rs r)

noncomputable def createRingVerts (innerR outerR len : ℝ) (rs vs : ℕ) : List Vec3 :=
  (List.range (vs + 1)).flatMap fun (vIdx : ℕ) =>
    let zc := -len / 2 + len * (vIdx : ℝ) / (vs : ℝ)
    ((List.range rs).map fun (rIdx : ℕ) =>
      let angle := 2 * Real.pi * (rIdx : ℝ) / (rs : ℝ)
      ⟨outerR * Real.cos angle, outerR * Real.sin angle, zc⟩) ++
      ((List.range rs).map fun (rIdx : ℕ) =>
        let angle := 2 * Real.pi * (rIdx : ℝ) / (rs : ℝ)
        ⟨innerR * Real.cos angle, innerR * Real.sin angle, zc⟩)

structure RingSpec where
  innerRadius : ℚ
  outerRadius : ℚ
  ringLength : ℚ
  radialSegments : ℕ
  verticalSegments : ℕ

noncomputable def createRing (s : RingSpec) : Mesh :=
  ⟨createRingVerts (s.innerRadius : ℝ) (s.outerRadius : ℝ) (s.ringLength : ℝ)
     s.radialSegments s.verticalSegments,
   createRingFaces s.radialSegments s.verticalSegments⟩

/-! Decoding of flat vertex indices: level and in-level position. -/

def lvl (rs a : ℕ) : ℕ := a / (2 * rs)

def pos (rs a : ℕ) : ℕ := a % (2 * rs)

theorem lvl_oIdx {rs r : ℕ} (hrs : 0 < rs) (hr : r < rs) (v : ℕ) :
    lvl rs (oIdx rs v r) = v := by
  unfold lvl oIdx
  rw [Nat.mul_comm v (2 * rs), Nat.mul_add_div (by omega), Nat.div_eq_of_lt (by omega),
    Nat.add_zero]

theorem pos_oIdx {rs r : ℕ} (hr : r < rs) (v : ℕ) :
    pos rs (oIdx rs v r) = r := by
  unfold pos oIdx
  rw [Nat.mul_comm v (2 * rs), Nat.mul_add_mod, Nat.mod_eq_of_lt (by omega)]

theorem lvl_iIdx {rs r : ℕ} (hrs : 0 < rs) (hr : r < rs) (v : ℕ) :
    lvl rs (iIdx rs v r) = v := by
  unfold lvl iIdx
  rw [Nat.mul_comm v (2 * rs), Nat.mul_add_div (by omega), Nat.div_eq_of_lt (by omega),
    Nat.add_zero]

theorem pos_iIdx {rs r : ℕ} (hr : r < rs) (v : ℕ) :
    pos rs (iIdx rs v r) = rs + r := by
  unfold pos iIdx
  rw [Nat.mul_comm v (2 * rs), Nat.mul_add_mod, Nat.mod_eq_of_lt (by omega)]

/-! Modular-successor arithmetic used by the edge pairing. -/

theorem rsucc_lt {rs : ℕ} (hrs : 0 < rs) (r : ℕ) : (r + 1) % rs < rs :=
  Nat.mod_lt _ hrs

theorem succ_pred_mod {rs r : ℕ} (hrs : 0 < rs) (hr : r < rs) :
    ((r + rs - 1) % rs + 1) % rs = r := by
  by_cases h0 : r = 0
  · subst h0
    rw [Nat.zero_add, Nat.mod_eq_of_lt (show rs - 1 < rs by omega),
      Nat.sub_add_cancel (by omega), Nat.mod_self]
  · have h1 : r + rs - 1 = r - 1 + rs := by omega
    rw [h1, Nat.add_mod_right, Nat.mod_eq_of_lt (show r - 1 < rs by omega),
      show r - 1 + 1 = r by omega, Nat.mod_eq_of_lt hr]

theorem pred_succ_mod {rs r : ℕ} (hrs : 0 < rs) (hr : r < rs) :
    ((r + 1) % rs + rs - 1) % rs = r := by
  by_cases h : r + 1 < rs
  · rw [Nat.mod_eq_of_lt h, show r + 1 + rs - 1 = r + rs by omega, Nat.add_mod_right,
      Nat.mod_eq_of_lt hr]
  · rw [show r + 1 = rs by omega, Nat.mod_self, Nat.zero_add,
      Nat.mod_eq_of_lt (show rs - 1 < rs by omega)]
    omega

theorem ne_succ_mod {rs r : ℕ} (hrs : 2 ≤ rs) (hr : r < rs) : r ≠ (r + 1) % rs := by
  by_cases h : r + 1 < rs
  · rw [Nat.mod_eq_of_lt h]; omega
  · rw [show r + 1 = rs by omega, Nat.mod_self]; omega

theorem ne_add_two_mod {rs r : ℕ} (hrs : 3 ≤ rs) (hr : r < rs) : r ≠ (r + 2) % rs := by
  rcases Nat.lt_or_ge (r + 2) rs with h | h
  · rw [Nat.mod_eq_of_lt h]; omega
  · have h2 : (r + 2) % rs = r + 2 - rs := by
      rw [Nat.mod_eq_sub_mod h, Nat.mod_eq_of_lt (by omega)]
    omega

/-! ### Enumerating the directed edges of the full ring mesh

Each face contributes four directed edges; `edgeOf` lists them per face
family (`k = 0..3` outer side, `4..7` inner side, `8..11` top cap,
`12..15` bottom cap), and `idxList` enumerates the `(k, v, r)` index
triples in the same order as the faces are emitted. -/

def edgeOf (rs vs : ℕ) : ℕ × ℕ × ℕ → ℕ × ℕ
  | (0, v, r) => (oIdx rs v r, oIdx rs v ((r + 1) % rs))
  | (1, v, r) => (oIdx rs v ((r + 1) % rs), oIdx rs (v + 1) ((r + 1) % rs))
  | (2, v, r) => (oIdx rs (v + 1) ((r + 1) % rs), oIdx rs (v + 1) r)
  | (3, v, r) => (oIdx rs (v + 1) r, oIdx rs v r)
  | (4, v, r) => (iIdx rs v r, iIdx rs (v + 1) r)
  | (5, v, r) => (iIdx rs (v + 1) r, iIdx rs (v + 1) ((r + 1) % rs))
  | (6, v, r) => (iIdx rs (v + 1) ((r + 1) % rs), iIdx rs v ((r + 1) % rs))
  | (7, v, r) => (iIdx rs v ((r + 1) % rs), iIdx rs v r)
  | (8, _, r) => (oIdx rs vs r, oIdx rs vs ((r + 1) % rs))
  | (9, _, r) => (oIdx rs vs ((r + 1) % rs), iIdx rs vs ((r + 1) % rs))
  | (10, _, r) => (iIdx rs vs ((r + 1) % rs), iIdx rs vs r)
  | (11, _, r) => (iIdx rs vs r, oIdx rs vs r)
  | (12, _, r) => (oIdx rs 0 r, iIdx rs 0 r)
  | (13, _, r) => (iIdx rs 0 r, iIdx rs 0 ((r + 1) % rs))
  | (14, _, r) => (iIdx rs 0 ((r + 1) % rs), oIdx rs 0 ((r + 1) % rs))
  | (15, _, r) => (oIdx rs 0 ((r + 1) % rs), oIdx rs 0 r)
  | _ => (0, 0)

def idxQuad (k0 v r : ℕ) : List (ℕ × ℕ × ℕ) :=
  [(k0, v, r), (k0 + 1, v, r), (k0 + 2, v, r), (k0 + 3, v, r)]

def idxList (rs vs : ℕ) : List (ℕ × ℕ × ℕ) :=
  ((List.range vs).flatMap fun v =>
    ((List.range rs).flatMap fun r => idxQuad 0 v r) ++
      ((List.range rs).flatMap fun r => idxQuad 4 v r)) ++
  ((List.range rs).flatMap fun r => idxQuad 8 0 r) ++
  ((List.range rs).flatMap fun r => idxQuad 12 0 r)

theorem dedges_outerFace (rs vs v r : ℕ) :
    dedges (outerFace rs v r) = (idxQuad 0 v r).map (edgeOf rs vs) := rfl

theorem dedges_innerFace (rs vs v r : ℕ) :
    dedges (innerFace rs v r) = (idxQuad 4 v r).map (edgeOf rs vs) := rfl

theorem dedges_topFace (rs vs v r : ℕ) :
    dedges (topFace rs vs r) = (idxQuad 8 v r).map (edgeOf rs vs) := rfl

theorem dedges_bottomFace (rs vs v r : ℕ) :
    dedges (bottomFace rs r) = (idxQuad 12 v r).map (edgeOf rs vs) := rfl

theorem ringEdges_eq (rs vs : ℕ) :
    allDE (createRingFaces rs vs) = (idxList rs vs).map (edgeOf rs vs) := by
  unfold allDE createRingFaces idxList
  simp only [List.flatMap_append, List.map_append, List.flatMap_assoc, List.map_flatMap,
    List.flatMap_map]
  rfl

/-- Decoder recovering the `(k, v, r)` index of a directed edge of the
full ring mesh from the edge's two endpoint indices; a left inverse of
`edgeOf` on the enumerated index triples (for `rs ≥ 3`, `vs ≥ 1`). -/
def decode (rs vs : ℕ) (e : ℕ × ℕ) : ℕ × ℕ × ℕ :=
  if pos rs e.1 < rs then
    if pos rs e.2 < rs then
      if lvl rs e.1 = lvl rs e.2 then
        if pos rs e.2 = (pos rs e.1 + 1) % rs then
          if lvl rs e.1 = vs then (8, 0, pos rs e.1) else (0, lvl rs e.1, pos rs e.1)
        else
          if lvl rs e.1 = 0 then (15, 0, pos rs e.2) else (2, lvl rs e.1 - 1, pos rs e.2)
      else if lvl rs e.2 = lvl rs e.1 + 1 then (1, lvl rs e.1, (pos rs e.1 + rs - 1) % rs)
      else (3, lvl rs e.2, pos rs e.1)
    else
      if lvl rs e.1 = 0 then (12, 0, pos rs e.1) else (9, 0, (pos rs e.1 + rs - 1) % rs)
  else
    if pos rs e.2 < rs then
      if lvl rs e.1 = 0 then (14, 0, (pos rs e.1 - rs + rs - 1) % rs)
      else (11, 0, pos rs e.1 - rs)
    else
      if lvl rs e.1 = lvl rs e.2 then
        if pos rs e.2 = (pos rs e.1 - rs + 1) % rs + rs then
          if lvl rs e.1 = 0 then (13, 0, pos rs e.1 - rs) else (5, lvl rs e.1 - 1, pos rs e.1 - rs)
        else
          if lvl rs e.1 = vs then (10, 0, pos rs e.2 - rs) else (7, lvl rs e.1, pos rs e.2 - rs)
      else if lvl rs e.2 = lvl rs e.1 + 1 then (4, lvl rs e.1, pos rs e.1 - rs)
      else (6, lvl rs e.2, (pos rs e.1 - rs + rs - 1) % rs)

section DecodeLemmas

variable {rs vs v r : ℕ}

theorem decode_k0 (hrs : 3 ≤ rs) (hv : v < vs) (hr : r < rs) :
    decode rs vs (edgeOf rs vs (0, v, r)) = (0, v, r) := by
  have h0 : 0 < rs := by omega
  have hr1 : (r + 1) % rs < rs := rsucc_lt h0 r
  show decode rs vs (oIdx rs v r, oIdx rs v ((r + 1) % rs)) = (0, v, r)
  unfold decode
  simp [pos_oIdx hr, pos_oIdx hr1, lvl_oIdx h0 hr, lvl_oIdx h0 hr1, hr, hr1,
    Nat.ne_of_lt hv]

theorem decode_k8 (hrs : 3 ≤ rs) (hvs : 1 ≤ vs) (hr : r < rs) :
    decode rs vs (edgeOf rs vs (8, 0, r)) = (8, 0, r) := by
  have h0 : 0 < rs := by omega
  have hr1 : (r + 1) % rs < rs := rsucc_lt h0 r
  show decode rs vs (oIdx rs vs r, oIdx rs vs ((r + 1) % rs)) = (8, 0, r)
  unfold decode
  simp [pos_oIdx hr, pos_oIdx hr1, lvl_oIdx h0 hr, lvl_oIdx h0 hr1, hr, hr1]

theorem decode_k2 (hrs : 3 ≤ rs) (hv : v < vs) (hr : r < rs) :
    decode rs vs (edgeOf rs vs (2, v, r)) = (2, v, r) := by
  have h0 : 0 < rs := by omega
  have hr1 : (r + 1) % rs < rs := rsucc_lt h0 r
  have htwo : ((r + 1) % rs + 1) % rs = (r + 2) % rs := by
    rw [Nat.mod_add_mod]
  have hne : r ≠ (r + 2) % rs := ne_add_two_mod hrs hr
  show decode rs vs (oIdx rs (v + 1) ((r + 1) % rs), oIdx rs (v + 1) r) = (2, v, r)
  unfold decode
  simp [pos_oIdx hr, pos_oIdx hr1, lvl_oIdx h0 hr, lvl_oIdx h0 hr1, hr, hr1, htwo, hne]

theorem decode_k15 (hrs : 3 ≤ rs) (hvs : 1 ≤ vs) (hr : r < rs) :
    decode rs vs (edgeOf rs vs (15, 0, r)) = (15, 0, r) := by
  have h0 : 0 < rs := by omega
  have hr1 : (r + 1) % rs < rs := rsucc_lt h0 r
  have htwo : ((r + 1) % rs + 1) % rs = (r + 2) % rs := by
    rw [Nat.mod_add_mod]
  have hne : r ≠ (r + 2) % rs := ne_add_two_mod hrs hr
  show decode rs vs (oIdx rs 0 ((r + 1) % rs), oIdx rs 0 r) = (15, 0, r)
  unfold decode
  simp [pos_oIdx hr, pos_oIdx hr1, lvl_oIdx h0 hr, lvl_oIdx h0 hr1, hr, hr1, htwo, hne]

theorem decode_k1 (hrs : 3 ≤ rs) (hv : v < vs) (hr : r < rs) :
    decode rs vs (edgeOf rs vs (1, v, r)) = (1, v, r) := by
  have h0 : 0 < rs := by omega
  have hr1 : (r + 1) % rs < rs := rsucc_lt h0 r
  show decode rs vs (oIdx rs v ((r + 1) % rs), oIdx rs (v + 1) ((r + 1) % rs)) = (1, v, r)
  unfold decode
  simp [pos_oIdx hr1, lvl_oIdx h0 hr1, hr1, (by omega : v ≠ v + 1),
    pred_succ_mod h0 hr]

theorem decode_k3 (hrs : 3 ≤ rs) (hv : v < vs) (hr : r < rs) :
    decode rs vs (edgeOf rs vs (3, v, r)) = (3, v, r) := by
  have h0 : 0 < rs := by omega
  show decode rs vs (oIdx rs (v + 1) r, oIdx rs v r) = (3, v, r)
  unfold decode
  simp [pos_oIdx hr, lvl_oIdx h0 hr, hr, (by omega : v + 1 ≠ v)]
  omega

theorem decode_k4 (hrs : 3 ≤ rs) (hv : v < vs) (hr : r < rs) :
    decode rs vs (edgeOf rs vs (4, v, r)) = (4, v, r) := by
  have h0 : 0 < rs := by omega
  show decode rs vs (iIdx rs v r, iIdx rs (v + 1) r) = (4, v, r)
  unfold decode
  simp [pos_iIdx hr, lvl_iIdx h0 hr, (by omega : ¬ (rs + r < rs)),
    (by omega : v ≠ v + 1), Nat.add_sub_cancel_left]

theorem decode_k5 (hrs : 3 ≤ rs) (hv : v < vs) (hr : r < rs) :
    decode rs vs (edgeOf rs vs (5, v, r)) = (5, v, r) := by
  have h0 : 0 < rs := by omega
  have hr1 : (r + 1) % rs < rs := rsucc_lt h0 r
  show decode rs vs (iIdx rs (v + 1) r, iIdx rs (v + 1) ((r + 1) % rs)) = (5, v, r)
  unfold decode
  simp [pos_iIdx hr, pos_iIdx hr1, lvl_iIdx h0 hr, lvl_iIdx h0 hr1,
    (by omega : ¬ (rs + r < rs)), (by omega : ¬ (rs + (r + 1) % rs < rs)),
    Nat.add_sub_cancel_left, Nat.add_comm rs ((r + 1) % rs)]

theorem decode_k13 (hrs : 3 ≤ rs) (hvs : 1 ≤ vs) (hr : r < rs) :
    decode rs vs (edgeOf rs vs (13, 0, r)) = (13, 0, r) := by
  have h0 : 0 < rs := by omega
  have hr1 : (r + 1) % rs < rs := rsucc_lt h0 r
  show decode rs vs (iIdx rs 0 r, iIdx rs 0 ((r + 1) % rs)) = (13, 0, r)
  unfold decode
  simp [pos_iIdx hr, pos_iIdx hr1, lvl_iIdx h0 hr, lvl_iIdx h0 hr1,
    (by omega : ¬ (rs + r < rs)), (by omega : ¬ (rs + (r + 1) % rs < rs)),
    Nat.add_sub_cancel_left, Nat.add_comm rs ((r + 1) % rs)]

theorem decode_k6 (hrs : 3 ≤ rs) (hv : v < vs) (hr : r < rs) :
    decode rs vs (edgeOf rs vs (6, v, r)) = (6, v, r) := by
  have h0 : 0 < rs := by omega
  have hr1 : (r + 1) % rs < rs := rsucc_lt h0 r
  show decode rs vs (iIdx rs (v + 1) ((r + 1) % rs), iIdx rs v ((r + 1) % rs)) = (6, v, r)
  unfold decode
  simp [pos_iIdx hr1, lvl_iIdx h0 hr1, (by omega : ¬ (rs + (r + 1) % rs < rs)),
    (by omega : v + 1 ≠ v), Nat.add_sub_cancel_left, pred_succ_mod h0 hr]
  omega

theorem decode_k7 (hrs : 3 ≤ rs) (hv : v < vs) (hr : r < rs) :
    decode rs vs (edgeOf rs vs (7, v, r)) = (7, v, r) := by
  have h0 : 0 < rs := by omega
  have hr1 : (r + 1) % rs < rs := rsucc_lt h0 r
  have htwo : ((r + 1) % rs + 1) % rs = (r + 2) % rs := by
    rw [Nat.mod_add_mod]
  have hne : r ≠ (r + 2) % rs := ne_add_two_mod hrs hr
  have hne2 : rs + r ≠ ((r + 1) % rs + 1) % rs + rs := by
    rw [htwo]; omega
  show decode rs vs (iIdx rs v ((r + 1) % rs), iIdx rs v r) = (7, v, r)
  unfold decode
  simp [pos_iIdx hr, pos_iIdx hr1, lvl_iIdx h0 hr, lvl_iIdx h0 hr1,
    (by omega : ¬ (rs + r < rs)), (by omega : ¬ (rs + (r + 1) % rs < rs)),
    Nat.add_sub_cancel_left, hne2, Nat.ne_of_lt hv]
  intro hcontra
  rw [show r + 1 + 1 = r + 2 by omega] at hcontra
  exact absurd (by omega : r = (r + 2) % rs) hne

theorem decode_k10 (hrs : 3 ≤ rs) (hvs : 1 ≤ vs) (hr : r < rs) :
    decode rs vs (edgeOf rs vs (10, 0, r)) = (10, 0, r) := by
  have h0 : 0 < rs := by omega
  have hr1 : (r + 1) % rs < rs := rsucc_lt h0 r
  have htwo : ((r + 1) % rs + 1) % rs = (r + 2) % rs := by
    rw [Nat.mod_add_mod]
  have hne2 : rs + r ≠ ((r + 1) % rs + 1) % rs + rs := by
    rw [htwo]
    have := ne_add_two_mod hrs hr
    omega
  show decode rs vs (iIdx rs vs ((r + 1) % rs), iIdx rs vs r) = (10, 0, r)
  unfold decode
  simp [pos_iIdx hr, pos_iIdx hr1, lvl_iIdx h0 hr, lvl_iIdx h0 hr1,
    (by omega : ¬ (rs + r < rs)), (by omega : ¬ (rs + (r + 1) % rs < rs)),
    Nat.add_sub_cancel_left, hne2]
  intro hcontra
  rw [show r + 1 + 1 = r + 2 by omega] at hcontra
  exact absurd (by omega : r = (r + 2) % rs) (ne_add_two_mod hrs hr)

theorem decode_k9 (hrs : 3 ≤ rs) (hvs : 1 ≤ vs) (hr : r < rs) :
    decode rs vs (edgeOf rs vs (9, 0, r)) = (9, 0, r) := by
  have h0 : 0 < rs := by omega
  have hr1 : (r + 1) % rs < rs := rsucc_lt h0 r
  show decode rs vs (oIdx rs vs ((r + 1) % rs), iIdx rs vs ((r + 1) % rs)) = (9, 0, r)
  unfold decode
  simp [pos_oIdx hr1, pos_iIdx hr1, lvl_oIdx h0 hr1, hr1,
    (by omega : ¬ (rs + (r + 1) % rs < rs)), pred_succ_mod h0 hr]
  omega

theorem decode_k11 (hrs : 3 ≤ rs) (hvs : 1 ≤ vs) (hr : r < rs) :
    decode rs vs (edgeOf rs vs (11, 0, r)) = (11, 0, r) := by
  have h0 : 0 < rs := by omega
  show decode rs vs (iIdx rs vs r, oIdx rs vs r) = (11, 0, r)
  unfold decode
  simp [pos_oIdx hr, pos_iIdx hr, lvl_iIdx h0 hr, hr,
    (by omega : ¬ (rs + r < rs)), Nat.add_sub_cancel_left]
  omega

theorem decode_k12 (hrs : 3 ≤ rs) (hvs : 1 ≤ vs) (hr : r < rs) :
    decode rs vs (edgeOf rs vs (12, 0, r)) = (12, 0, r) := by
  have h0 : 0 < rs := by omega
  show decode rs vs (oIdx rs 0 r, iIdx rs 0 r) = (12, 0, r)
  unfold decode
  simp [pos_oIdx hr, pos_iIdx hr, lvl_oIdx h0 hr, hr, (by omega : ¬ (rs + r < rs))]

theorem decode_k14 (hrs : 3 ≤ rs) (hvs : 1 ≤ vs) (hr : r < rs) :
    decode rs vs (edgeOf rs vs (14, 0, r)) = (14, 0, r) := by
  have h0 : 0 < rs := by omega
  have hr1 : (r + 1) % rs < rs := rsucc_lt h0 r
  show decode rs vs (iIdx rs 0 ((r + 1) % rs), oIdx rs 0 ((r + 1) % rs)) = (14, 0, r)
  unfold decode
  simp [pos_oIdx hr1, pos_iIdx hr1, lvl_iIdx h0 hr1, hr1,
    (by omega : ¬ (rs + (r + 1) % rs < rs)), Nat.add_sub_cancel_left,
    pred_succ_mod h0 hr]

end DecodeLemmas

theorem mem_idxQuad_parts {x : ℕ × ℕ × ℕ} {k0 v r : ℕ} (h : x ∈ idxQuad k0 v r) :
    k0 ≤ x.1 ∧ x.1 ≤ k0 + 3 ∧ x.2.1 = v ∧ x.2.2 = r := by
  simp only [idxQuad, List.mem_cons, List.not_mem_nil, or_false] at h
  rcases h with rfl | rfl | rfl | rfl <;> simp

theorem decode_edgeOf (rs vs : ℕ) (hrs : 3 ≤ rs) (hvs : 1 ≤ vs) :
    ∀ i ∈ idxList rs vs, decode rs vs (edgeOf rs vs i) = i := by
  intro i hi
  simp only [idxList, List.mem_append, List.mem_flatMap, List.mem_range, idxQuad,
    List.mem_cons, List.not_mem_nil, or_false] at hi
  rcases hi with (⟨v, hv, hor⟩ | ⟨r, hr, hor⟩) | ⟨r, hr, hor⟩
  · rcases hor with ⟨r, hr, hor⟩ | ⟨r, hr, hor⟩
    · rcases hor with rfl | rfl | rfl | rfl
      · exact decode_k0 hrs hv hr
      · exact decode_k1 hrs hv hr
      · exact decode_k2 hrs hv hr
      · exact decode_k3 hrs hv hr
    · rcases hor with rfl | rfl | rfl | rfl
      · exact decode_k4 hrs hv hr
      · exact decode_k5 hrs hv hr
      · exact decode_k6 hrs hv hr
      · exact decode_k7 hrs hv hr
  · rcases hor with rfl | rfl | rfl | rfl
    · exact decode_k8 hrs hvs hr
    · exact decode_k9 hrs hvs hr
    · exact decode_k10 hrs hvs hr
    · exact decode_k11 hrs hvs hr
  · rcases hor with rfl | rfl | rfl | rfl
    · exact decode_k12 hrs hvs hr
    · exact decode_k13 hrs hvs hr
    · exact decode_k14 hrs hvs hr
    · exact decode_k15 hrs hvs hr

theorem nodup_idxQuad (k0 v r : ℕ) : (idxQuad k0 v r).Nodup := by
  simp [idxQuad, Prod.ext_iff]

theorem disjoint_idxQuad {k0 v r k0' v' r' : ℕ}
    (h : k0 ≠ k0' ∨ v ≠ v' ∨ r ≠ r')
    (hk : k0 = k0' ∨ k0 + 3 < k0' ∨ k0' + 3 < k0) :
    List.Disjoint (idxQuad k0 v r) (idxQuad k0' v' r') := by
  intro x hx hx'
  obtain ⟨ha1, ha2, ha3, ha4⟩ := mem_idxQuad_parts hx
  obtain ⟨hb1, hb2, hb3, hb4⟩ := mem_idxQuad_parts hx'
  omega

theorem nodup_quadBlock (n k0 v : ℕ) :
    ((List.range n).flatMap fun r => idxQuad k0 v r).Nodup := by
  rw [List.nodup_flatMap]
  refine ⟨fun r _ => nodup_idxQuad k0 v r, ?_⟩
  exact (List.pairwise_lt_range n).imp fun {a b} hab =>
    disjoint_idxQuad (Or.inr (Or.inr (by omega))) (Or.inl rfl)

theorem mem_quadBlock_parts {x : ℕ × ℕ × ℕ} {n k0 v : ℕ}
    (h : x ∈ (List.range n).flatMap fun r => idxQuad k0 v r) :
    k0 ≤ x.1 ∧ x.1 ≤ k0 + 3 ∧ x.2.1 = v := by
  rw [List.mem_flatMap] at h
  obtain ⟨r, _, hx⟩ := h
  obtain ⟨h1, h2, h3, _⟩ := mem_idxQuad_parts hx
  exact ⟨h1, h2, h3⟩

theorem nodup_idxList (rs vs : ℕ) : (idxList rs vs).Nodup := by
  unfold idxList
  have hAB : ∀ v : ℕ, (((List.range rs).flatMap fun r => idxQuad 0 v r) ++
      ((List.range rs).flatMap fun r => idxQuad 4 v r)).Nodup := by
    intro v
    refine (nodup_quadBlock rs 0 v).append (nodup_quadBlock rs 4 v) ?_
    intro x hx hx'
    obtain ⟨h1, h2, _⟩ := mem_quadBlock_parts hx
    obtain ⟨h3, h4, _⟩ := mem_quadBlock_parts hx'
    omega
  have hMain : ((List.range vs).flatMap fun v =>
      ((List.range rs).flatMap fun r => idxQuad 0 v r) ++
        ((List.range rs).flatMap fun r => idxQuad 4 v r)).Nodup := by
    rw [List.nodup_flatMap]
    refine ⟨fun v _ => hAB v, ?_⟩
    refine (List.pairwise_lt_range vs).imp fun {a b} hab => ?_
    intro x hx hx'
    rw [List.mem_append] at hx hx'
    have hxa : x.2.1 = a := by
      rcases hx with hx | hx <;> exact (mem_quadBlock_parts hx).2.2
    have hxb : x.2.1 = b := by
      rcases hx' with hx' | hx' <;> exact (mem_quadBlock_parts hx').2.2
    omega
  have hfst : ∀ x ∈ ((List.range vs).flatMap fun v =>
      ((List.range rs).flatMap fun r => idxQuad 0 v r) ++
        ((List.range rs).flatMap fun r => idxQuad 4 v r)), x.1 ≤ 7 := by
    intro x hx
    rw [List.mem_flatMap] at hx
    obtain ⟨v, _, hx⟩ := hx
    rw [List.mem_append] at hx
    rcases hx with hx | hx
    · have := mem_quadBlock_parts hx; omega
    · have := mem_quadBlock_parts hx; omega
  refine List.Nodup.append (List.Nodup.append hMain (nodup_quadBlock rs 8 0) ?_)
    (nodup_quadBlock rs 12 0) ?_
  · intro x hx hx'
    have h1 := hfst x hx
    have h2 := (mem_quadBlock_parts hx').1
    omega
  · intro x hx hx'
    rw [List.mem_append] at hx
    have h2 := (mem_quadBlock_parts hx').1
    rcases hx with hx | hx
    · have h1 := hfst x hx; omega
    · have h1 := (mem_quadBlock_parts hx).2.1; omega

theorem mem_idxList_A {rs vs k0 v r : ℕ} (hk : k0 ≤ 3) (hv : v < vs) (hr : r < rs) :
    (k0, v, r) ∈ idxList rs vs := by
  unfold idxList
  rw [List.mem_append, List.mem_append]
  left; left
  rw [List.mem_flatMap]
  refine ⟨v, List.mem_range.mpr hv, ?_⟩
  rw [List.mem_append]
  left
  rw [List.mem_flatMap]
  refine ⟨r, List.mem_range.mpr hr, ?_⟩
  simp [idxQuad]
  omega

theorem mem_idxList_B {rs vs k0 v r : ℕ} (hk1 : 4 ≤ k0) (hk2 : k0 ≤ 7) (hv : v < vs)
    (hr : r < rs) : (k0, v, r) ∈ idxList rs vs := by
  unfold idxList
  rw [List.mem_append, List.mem_append]
  left; left
  rw [List.mem_flatMap]
  refine ⟨v, List.mem_range.mpr hv, ?_⟩
  rw [List.mem_append]
  right
  rw [List.mem_flatMap]
  refine ⟨r, List.mem_range.mpr hr, ?_⟩
  simp [idxQuad]
  omega

theorem mem_idxList_T {rs vs k0 r : ℕ} (hk1 : 8 ≤ k0) (hk2 : k0 ≤ 11) (hr : r < rs) :
    (k0, 0, r) ∈ idxList rs vs := by
  unfold idxList
  rw [List.mem_append, List.mem_append]
  left; right
  rw [List.mem_flatMap]
  refine ⟨r, List.mem_range.mpr hr, ?_⟩
  simp [idxQuad]
  omega

theorem mem_idxList_D {rs vs k0 r : ℕ} (hk1 : 12 ≤ k0) (hk2 : k0 ≤ 15) (hr : r < rs) :
    (k0, 0, r) ∈ idxList rs vs := by
  unfold idxList
  rw [List.mem_append, List.mem_append]
  right
  rw [List.mem_flatMap]
  refine ⟨r, List.mem_range.mpr hr, ?_⟩
  simp [idxQuad]
  omega

theorem swap_mem_ringEdges (rs vs : ℕ) (hrs : 3 ≤ rs) (hvs : 1 ≤ vs) :
    ∀ e ∈ allDE (createRingFaces rs vs),
      Prod.swap e ∈ allDE (createRingFaces rs vs) := by
  rw [ringEdges_eq]
  intro e he
  rw [List.mem_map] at he ⊢
  obtain ⟨i, hi, rfl⟩ := he
  have h0 : 0 < rs := by omega
  simp only [idxList, List.mem_append, List.mem_flatMap, List.mem_range, idxQuad,
    List.mem_cons, List.not_mem_nil, or_false] at hi
  rcases hi with (⟨v, hv, hor⟩ | ⟨r, hr, hor⟩) | ⟨r, hr, hor⟩
  · rcases hor with ⟨r, hr, hor⟩ | ⟨r, hr, hor⟩
    · rcases hor with rfl | rfl | rfl | rfl
      · -- A1: swap is D4 (v = 0) or A3 (v ≥ 1)
        by_cases hv0 : v = 0
        · subst hv0
          exact ⟨(15, 0, r), mem_idxList_D (by omega) (by omega) hr, rfl⟩
        · refine ⟨(2, v - 1, r), mem_idxList_A (by omega) (by omega) hr, ?_⟩
          show (oIdx rs (v - 1 + 1) ((r + 1) % rs), oIdx rs (v - 1 + 1) r)
            = Prod.swap (oIdx rs v r, oIdx rs v ((r + 1) % rs))
          rw [show v - 1 + 1 = v by omega]
          rfl
      · -- A2: swap is A4 at r+1
        exact ⟨(3, v, (r + 1) % rs), mem_idxList_A (by omega) hv (rsucc_lt h0 r), rfl⟩
      · -- A3: swap is C1 (v+1 = vs) or A1 (v+1 < vs)
        by_cases hvtop : v + 1 = vs
        · refine ⟨(8, 0, r), mem_idxList_T (by omega) (by omega) hr, ?_⟩
          show (oIdx rs vs r, oIdx rs vs ((r + 1) % rs))
            = Prod.swap (oIdx rs (v + 1) ((r + 1) % rs), oIdx rs (v + 1) r)
          rw [← hvtop]
          rfl
        · exact ⟨(0, v + 1, r), mem_idxList_A (by omega) (by omega) hr, rfl⟩
      · -- A4: swap is A2 at r-1
        refine ⟨(1, v, (r + rs - 1) % rs),
          mem_idxList_A (by omega) hv (Nat.mod_lt _ h0), ?_⟩
        show (oIdx rs v (((r + rs - 1) % rs + 1) % rs),
            oIdx rs (v + 1) (((r + rs - 1) % rs + 1) % rs))
          = Prod.swap (oIdx rs (v + 1) r, oIdx rs v r)
        rw [succ_pred_mod h0 hr]
        rfl
    · rcases hor with rfl | rfl | rfl | rfl
      · -- B1: swap is B3 at r-1
        refine ⟨(6, v, (r + rs - 1) % rs),
          mem_idxList_B (by omega) (by omega) hv (Nat.mod_lt _ h0), ?_⟩
        show (iIdx rs (v + 1) (((r + rs - 1) % rs + 1) % rs),
            iIdx rs v (((r + rs - 1) % rs + 1) % rs))
          = Prod.swap (iIdx rs v r, iIdx rs (v + 1) r)
        rw [succ_pred_mod h0 hr]
        rfl
      · -- B2: swap is C3 (v+1 = vs) or B4 (v+1 < vs)
        by_cases hvtop : v + 1 = vs
        · refine ⟨(10, 0, r), mem_idxList_T (by omega) (by omega) hr, ?_⟩
          show (iIdx rs vs ((r + 1) % rs), iIdx rs vs r)
            = Prod.swap (iIdx rs (v + 1) r, iIdx rs (v + 1) ((r + 1) % rs))
          rw [← hvtop]
          rfl
        · exact ⟨(7, v + 1, r), mem_idxList_B (by omega) (by omega) (by omega) hr, rfl⟩
      · -- B3: swap is B1 at r+1
        exact ⟨(4, v, (r + 1) % rs),
          mem_idxList_B (by omega) (by omega) hv (rsucc_lt h0 r), rfl⟩
      · -- B4: swap is D2 (v = 0) or B2 (v ≥ 1)
        by_cases hv0 : v = 0
        · subst hv0
          exact ⟨(13, 0, r), mem_idxList_D (by omega) (by omega) hr, rfl⟩
        · refine ⟨(5, v - 1, r), mem_idxList_B (by omega) (by omega) (by omega) hr, ?_⟩
          show (iIdx rs (v - 1 + 1) r, iIdx rs (v - 1 + 1) ((r + 1) % rs))
            = Prod.swap (iIdx rs v ((r + 1) % rs), iIdx rs v r)
          rw [show v - 1 + 1 = v by omega]
          rfl
  · rcases hor with rfl | rfl | rfl | rfl
    · -- C1: swap is A3 at v = vs - 1
      refine ⟨(2, vs - 1, r), mem_idxList_A (by omega) (by omega) hr, ?_⟩
      show (oIdx rs (vs - 1 + 1) ((r + 1) % rs), oIdx rs (vs - 1 + 1) r)
        = Prod.swap (oIdx rs vs r, oIdx rs vs ((r + 1) % rs))
      rw [show vs - 1 + 1 = vs by omega]
      rfl
    · -- C2: swap is C4 at r+1
      exact ⟨(11, 0, (r + 1) % rs), mem_idxList_T (by omega) (by omega) (rsucc_lt h0 r), rfl⟩
    · -- C3: swap is B2 at v = vs - 1
      refine ⟨(5, vs - 1, r), mem_idxList_B (by omega) (by omega) (by omega) hr, ?_⟩
      show (iIdx rs (vs - 1 + 1) r, iIdx rs (vs - 1 + 1) ((r + 1) % rs))
        = Prod.swap (iIdx rs vs ((r + 1) % rs), iIdx rs vs r)
      rw [show vs - 1 + 1 = vs by omega]
      rfl
    · -- C4: swap is C2 at r-1
      refine ⟨(9, 0, (r + rs - 1) % rs),
        mem_idxList_T (by omega) (by omega) (Nat.mod_lt _ h0), ?_⟩
      show (oIdx rs vs (((r + rs - 1) % rs + 1) % rs),
          iIdx rs vs (((r + rs - 1) % rs + 1) % rs))
        = Prod.swap (iIdx rs vs r, oIdx rs vs r)
      rw [succ_pred_mod h0 hr]
      rfl
  · rcases hor with rfl | rfl | rfl | rfl
    · -- D1: swap is D3 at r-1
      refine ⟨(14, 0, (r + rs - 1) % rs),
        mem_idxList_D (by omega) (by omega) (Nat.mod_lt _ h0), ?_⟩
      show (iIdx rs 0 (((r + rs - 1) % rs + 1) % rs),
          oIdx rs 0 (((r + rs - 1) % rs + 1) % rs))
        = Prod.swap (oIdx rs 0 r, iIdx rs 0 r)
      rw [succ_pred_mod h0 hr]
      rfl
    · -- D2: swap is B4 at v = 0
      exact ⟨(7, 0, r), mem_idxList_B (by omega) (by omega) (by omega) hr, rfl⟩
    · -- D3: swap is D1 at r+1
      exact ⟨(12, 0, (r + 1) % rs), mem_idxList_D (by omega) (by omega) (rsucc_lt h0 r), rfl⟩
    · -- D4: swap is A1 at v = 0
      exact ⟨(0, 0, r), mem_idxList_A (by omega) (by omega) hr, rfl⟩

theorem nodup_ringEdges (rs vs : ℕ) (hrs : 3 ≤ rs) (hvs : 1 ≤ vs) :
    (allDE (createRingFaces rs vs)).Nodup := by
  rw [ringEdges_eq]
  exact List.Nodup.map_on
    (fun x hx y hy hxy => by
      have h1 := decode_edgeOf rs vs hrs hvs x hx
      have h2 := decode_edgeOf rs vs hrs hvs y hy
      rw [← h1, ← h2, hxy])
    (nodup_idxList rs vs)

theorem ringEdges_fst_ne_snd (rs vs : ℕ) (hrs : 3 ≤ rs) (hvs : 1 ≤ vs) :
    ∀ e ∈ allDE (createRingFaces rs vs), e.1 ≠ e.2 := by
  rw [ringEdges_eq]
  intro e he
  rw [List.mem_map] at he
  obtain ⟨i, hi, rfl⟩ := he
  have h0 : 0 < rs := by omega
  simp only [idxList, List.mem_append, List.mem_flatMap, List.mem_range, idxQuad,
    List.mem_cons, List.not_mem_nil, or_false] at hi
  rcases hi with (⟨v, hv, hor⟩ | ⟨r, hr, hor⟩) | ⟨r, hr, hor⟩
  · rcases hor with ⟨r, hr, hor⟩ | ⟨r, hr, hor⟩
    · rcases hor with rfl | rfl | rfl | rfl
      · intro h
        have hp : pos rs (oIdx rs v r) = pos rs (oIdx rs v ((r + 1) % rs)) :=
          congrArg (pos rs) h
        rw [pos_oIdx hr, pos_oIdx (rsucc_lt h0 r)] at hp
        exact ne_succ_mod (by omega) hr hp
      · intro h
        have hp : lvl rs (oIdx rs v ((r + 1) % rs))
            = lvl rs (oIdx rs (v + 1) ((r + 1) % rs)) := congrArg (lvl rs) h
        rw [lvl_oIdx h0 (rsucc_lt h0 r), lvl_oIdx h0 (rsucc_lt h0 r)] at hp
        omega
      · intro h
        have hp : pos rs (oIdx rs (v + 1) ((r + 1) % rs)) = pos rs (oIdx rs (v + 1) r) :=
          congrArg (pos rs) h
        rw [pos_oIdx (rsucc_lt h0 r), pos_oIdx hr] at hp
        exact ne_succ_mod (by omega) hr hp.symm
      · intro h
        have hp : lvl rs (oIdx rs (v + 1) r) = lvl rs (oIdx rs v r) :=
          congrArg (lvl rs) h
        rw [lvl_oIdx h0 hr, lvl_oIdx h0 hr] at hp
        omega
    · rcases hor with rfl | rfl | rfl | rfl
      · intro h
        have hp : lvl rs (iIdx rs v r) = lvl rs (iIdx rs (v + 1) r) :=
          congrArg (lvl rs) h
        rw [lvl_iIdx h0 hr, lvl_iIdx h0 hr] at hp
        omega
      · intro h
        have hp : pos rs (iIdx rs (v + 1) r) = pos rs (iIdx rs (v + 1) ((r + 1) % rs)) :=
          congrArg (pos rs) h
        rw [pos_iIdx hr, pos_iIdx (rsucc_lt h0 r)] at hp
        exact ne_succ_mod (by omega) hr (by omega)
      · intro h
        have hp : lvl rs (iIdx rs (v + 1) ((r + 1) % rs)) = lvl rs (iIdx rs v ((r + 1) % rs)) :=
          congrArg (lvl rs) h
        rw [lvl_iIdx h0 (rsucc_lt h0 r), lvl_iIdx h0 (rsucc_lt h0 r)] at hp
        omega
      · intro h
        have hp : pos rs (iIdx rs v ((r + 1) % rs)) = pos rs (iIdx rs v r) :=
          congrArg (pos rs) h
        rw [pos_iIdx (rsucc_lt h0 r), pos_iIdx hr] at hp
        exact ne_succ_mod (by omega) hr (by omega)
  · rcases hor with rfl | rfl | rfl | rfl
    · intro h
      have hp : pos rs (oIdx rs vs r) = pos rs (oIdx rs vs ((r + 1) % rs)) :=
        congrArg (pos rs) h
      rw [pos_oIdx hr, pos_oIdx (rsucc_lt h0 r)] at hp
      exact ne_succ_mod (by omega) hr hp
    · intro h
      have hp : pos rs (oIdx rs vs ((r + 1) % rs)) = pos rs (iIdx rs vs ((r + 1) % rs)) :=
        congrArg (pos rs) h
      rw [pos_oIdx (rsucc_lt h0 r), pos_iIdx (rsucc_lt h0 r)] at hp
      have := rsucc_lt h0 r
      omega
    · intro h
      have hp : pos rs (iIdx rs vs ((r + 1) % rs)) = pos rs (iIdx rs vs r) :=
        congrArg (pos rs) h
      rw [pos_iIdx (rsucc_lt h0 r), pos_iIdx hr] at hp
      exact ne_succ_mod (by omega) hr (by omega)
    · intro h
      have hp : pos rs (iIdx rs vs r) = pos rs (oIdx rs vs r) :=
        congrArg (pos rs) h
      rw [pos_iIdx hr, pos_oIdx hr] at hp
      omega
  · rcases hor with rfl | rfl | rfl | rfl
    · intro h
      have hp : pos rs (oIdx rs 0 r) = pos rs (iIdx rs 0 r) :=
        congrArg (pos rs) h
      rw [pos_oIdx hr, pos_iIdx hr] at hp
      omega
    · intro h
      have hp : pos rs (iIdx rs 0 r) = pos rs (iIdx rs 0 ((r + 1) % rs)) :=
        congrArg (pos rs) h
      rw [pos_iIdx hr, pos_iIdx (rsucc_lt h0 r)] at hp
      exact ne_succ_mod (by omega) hr (by omega)
    · intro h
      have hp : pos rs (iIdx rs 0 ((r + 1) % rs)) = pos rs (oIdx rs 0 ((r + 1) % rs)) :=
        congrArg (pos rs) h
      rw [pos_iIdx (rsucc_lt h0 r), pos_oIdx (rsucc_lt h0 r)] at hp
      have := rsucc_lt h0 r
      omega
    · intro h
      have hp : pos rs (oIdx rs 0 ((r + 1) % rs)) = pos rs (oIdx rs 0 r) :=
        congrArg (pos rs) h
      rw [pos_oIdx (rsucc_lt h0 r), pos_oIdx hr] at hp
      exact ne_succ_mod (by omega) hr hp.symm

theorem count_eq_one_of_nodup {l : List (ℕ × ℕ)} (h : l.Nodup) {x : ℕ × ℕ}
    (hx : x ∈ l) : l.count x = 1 := by
  induction l with
  | nil => simp at hx
  | cons a rest ih =>
      rw [List.nodup_cons] at h
      rcases List.mem_cons.mp hx with rfl | hx2
      · rw [List.count_cons_self, List.count_eq_zero.mpr h.1]
      · rw [List.count_cons_of_ne (by rintro rfl; exact h.1 hx2), ih h.2 hx2]

theorem count_map_nedge {u w : ℕ} (huw : u < w) (l : List (ℕ × ℕ)) :
    (l.map nedge).count (u, w) = l.count (u, w) + l.count (w, u) := by
  induction l with
  | nil => rfl
  | cons p rest ih =>
      rw [List.map_cons]
      by_cases h1 : p = (u, w)
      · subst h1
        rw [show nedge (u, w) = (u, w) from if_pos (le_of_lt huw),
          List.count_cons_self, List.count_cons_self,
          List.count_cons_of_ne (by simp; omega), ih]
        omega
      · by_cases h2 : p = (w, u)
        · subst h2
          rw [show nedge (w, u) = (u, w) from if_neg (by simp; omega),
            List.count_cons_self, List.count_cons_of_ne (by simp; omega),
            List.count_cons_self, ih]
          omega
        · have h3 : nedge p ≠ (u, w) := by
            obtain ⟨p1, p2⟩ := p
            unfold nedge
            split
            · exact h1
            · intro hc
              rw [Prod.mk.injEq] at hc
              exact h2 (by simp [← hc.1, ← hc.2])
          rw [List.count_cons_of_ne (Ne.symm h3), List.count_cons_of_ne (Ne.symm h1),
            List.count_cons_of_ne (Ne.symm h2), ih]

/-- The two `BEq` instances on pairs of naturals (the product instance
and the one induced by decidable equality) count identically. -/
theorem countProd_eq (x : ℕ × ℕ) (l : List (ℕ × ℕ)) :
    @List.count _ instBEqOfDecidableEq x l = l.count x := by
  induction l with
  | nil => rfl
  | cons a rest ih =>
      rw [@List.count_cons _ instBEqOfDecidableEq, List.count_cons, ih]
      by_cases h : a = x <;> simp [instBEqOfDecidableEq, h]

/-- Every undirected edge of the full ring mesh belongs to exactly two
faces. -/
theorem ring_watertight (rs vs : ℕ) (hrs : 3 ≤ rs) (hvs : 1 ≤ vs) :
    watertight (createRingFaces rs vs) := by
  intro e he
  unfold undirectedEdges at he ⊢
  rw [List.mem_map] at he
  obtain ⟨d, hd, rfl⟩ := he
  have hne : d.1 ≠ d.2 := ringEdges_fst_ne_snd rs vs hrs hvs d hd
  have hnd := nodup_ringEdges rs vs hrs hvs
  have hswap := swap_mem_ringEdges rs vs hrs hvs d hd
  have hc1 : (allDE (createRingFaces rs vs)).count d = 1 := count_eq_one_of_nodup hnd hd
  have hc2 : (allDE (createRingFaces rs vs)).count d.swap = 1 :=
    count_eq_one_of_nodup hnd hswap
  obtain ⟨a, b⟩ := d
  simp only [Prod.swap_prod_mk] at hc2
  simp only at hne
  rcases Nat.lt_or_ge a b with hab | hab
  · rw [show nedge (a, b) = (a, b) from if_pos (le_of_lt hab), count_map_nedge hab]
    omega
  · have hba : b < a := by omega
    rw [show nedge (a, b) = (b, a) from if_neg (by simp; omega), count_map_nedge hba]
    omega

def edgeCount (faces : List (List ℕ)) : ℕ :=
  ((undirectedEdges faces : Multiset (ℕ × ℕ))).toFinset.card

/-- `V - E + F` of a mesh, with `E` the number of distinct undirected
edges. -/
def eulerChar (m : Mesh) : ℤ :=
  (m.verts.length : ℤ) - (edgeCount m.faces : ℤ) + (m.faces.length : ℤ)

theorem length_idxList (rs vs : ℕ) : (idxList rs vs).length = 8 * rs * (vs + 1) := by
  unfold idxList idxQuad
  simp [List.length_flatMap, Function.comp_def, List.map_const', List.sum_replicate,
    smul_eq_mul]
  ring

theorem length_createRingFaces (rs vs : ℕ) :
    (createRingFaces rs vs).length = 2 * rs * (vs + 1) := by
  unfold createRingFaces
  simp [List.length_flatMap, Function.comp_def, List.map_const', List.sum_replicate,
    smul_eq_mul]
  ring

theorem length_createRingVerts (innerR outerR len : ℝ) (rs vs : ℕ) :
    (createRingVerts innerR outerR len rs vs).length = (vs + 1) * (2 * rs) := by
  unfold createRingVerts
  simp [List.length_flatMap, Function.comp_def, List.map_const', List.sum_replicate,
    smul_eq_mul]
  ring

theorem ring_euler (rs vs : ℕ) (hrs : 3 ≤ rs) (hvs : 1 ≤ vs) :
    ((vs + 1) * (2 * rs) : ℤ) - (edgeCount (createRingFaces rs vs) : ℤ)
      + ((createRingFaces rs vs).length : ℤ) = 0 := by
  have hwater := ring_watertight rs vs hrs hvs
  have hlen : (undirectedEdges (createRingFaces rs vs)).length = 8 * rs * (vs + 1) := by
    unfold undirectedEdges
    rw [List.length_map, ringEdges_eq, List.length_map, length_idxList]
  have h2E : 2 * edgeCount (createRingFaces rs vs)
      = (undirectedEdges (createRingFaces rs vs)).length := by
    unfold edgeCount
    have hsum := Multiset.toFinset_sum_count_eq
      ((undirectedEdges (createRingFaces rs vs) : Multiset (ℕ × ℕ)))
    have hcnt : ∀ a ∈ ((undirectedEdges (createRingFaces rs vs) : Multiset (ℕ × ℕ))).toFinset,
        Multiset.count a ((undirectedEdges (createRingFaces rs vs) : Multiset (ℕ × ℕ))) = 2 := by
      intro a ha
      rw [Multiset.coe_count, countProd_eq]
      exact hwater a (by simpa using ha)
    rw [Finset.sum_congr rfl hcnt, Finset.sum_const, smul_eq_mul, mul_comm] at hsum
    simpa using hsum
  have hE : edgeCount (createRingFaces rs vs) = 4 * rs * (vs + 1) := by
    have h1 : 2 * edgeCount (createRingFaces rs vs) = 2 * (4 * rs * (vs + 1)) := by
      rw [h2E, hlen]
      ring
    exact Nat.eq_of_mul_eq_mul_left (by norm_num) h1
  rw [hE, length_createRingFaces]
  push_cast
  ring

/-- C2: for every valid ring specification (inner radius below outer,
positive length, at least 3 radial and 1 vertical segments) the
full-circle annulus mesh of `create_ring` is watertight — every
undirected edge lies in exactly two faces — and has Euler
characteristic `V - E + F = 0` (torus topology). -/
theorem ring_mesh_watertight_euler (s : RingSpec)
    (h1 : s.innerRadius < s.outerRadius) (h2 : 0 < s.ringLength)
    (h3 : 3 ≤ s.radialSegments) (h4 : 1 ≤ s.verticalSegments) :
    watertight (createRing s).faces ∧ eulerChar (createRing s) = 0 := by
  refine ⟨ring_watertight _ _ h3 h4, ?_⟩
  unfold eulerChar
  show ((createRing s).verts.length : ℤ) - (edgeCount (createRingFaces s.radialSegments
      s.verticalSegments) : ℤ) + ((createRingFaces s.radialSegments s.verticalSegments).length : ℤ) = 0
  rw [show (createRing s).verts.length = (s.verticalSegments + 1) * (2 * s.radialSegments)
    from length_createRingVerts _ _ _ _ _]
  push_cast
  exact_mod_cast ring_euler s.radialSegments s.verticalSegments h3 h4

theorem ring_mesh_watertight_euler_witness :
    ((8 : ℚ) < 10 ∧ (0 : ℚ) < 5 ∧ 3 ≤ 128 ∧ 1 ≤ 8) ∧
    (watertight (createRing ⟨8, 10, 5, 128, 8⟩).faces ∧
      eulerChar (createRing ⟨8, 10, 5, 128, 8⟩) = 0) :=
  ⟨⟨by norm_num, by norm_num, by norm_num, by norm_num⟩,
   ring_mesh_watertight_euler ⟨8, 10, 5, 128, 8⟩ (by norm_num) (by norm_num)
     (by norm_num) (by norm_num)⟩

end JewelryRing
